/-
Verification of the circuit/pulse lowering passes, the pulse `Schedule`
data structure and the pulse builder DSL of this repository, as a shallow
embedding in Lean 4.

Each section embeds one source module:
  * `CircuitLowering`  — qiskit/compiler/assembler.py (`assemble_circuits`)
  * `PulseSchedule`    — qiskit/pulse/schedule/pulse_schedule.py
  * `PulseLowering`    — qiskit/pulse/lowering.py (`LowerQobj`)
  * `Builder`          — qiskit/pulse/builder.py and qiskit/pulse/context.py
-/
import Mathlib

set_option linter.unusedVariables false

namespace CircuitLowering

/-- A classical or quantum register: `name` and bit count `size`
(`qiskit.circuit` registers, as consumed by `assemble_circuits`). -/
structure Reg where
  name : String
  size : Nat
deriving DecidableEq, Repr

/-- `clbit_labels` of `assemble_circuits`: the flat `[creg.name, j]` pairs in
declared-register order (`for creg in circuit.cregs: for j in range(creg.size)`). -/
def clbitLabels (cregs : List Reg) : List (String × Nat) :=
  (cregs.map (fun creg => (List.range creg.size).map (fun j => (creg.name, j)))).flatten

/-- `qubit_labels` of `assemble_circuits`, built the same way from `circuit.qregs`. -/
def qubitLabels (qregs : List Reg) : List (String × Nat) :=
  (qregs.map (fun qreg => (List.range qreg.size).map (fun j => (qreg.name, j)))).flatten

/-- `memory_slots`: total classical bit count, summed over `circuit.cregs`. -/
def memorySlots (cregs : List Reg) : Nat :=
  (cregs.map Reg.size).sum

/-- One entry of `circuit.data`: operation name, quantum and classical
arguments as `(register name, bit index)` pairs, and the optional classical
condition `op.control = (creg, value)`.  (Numeric/matrix parameters and the
snapshot/unitary label fields of the source are not modelled: they are
floating-point payloads untouched by the claims considered here.) -/
structure CircuitOp where
  name : String
  qargs : List (String × Nat)
  cargs : List (String × Nat)
  control : Option (String × Nat)
deriving DecidableEq, Repr

/-- A circuit handed to `assemble_circuits`. -/
structure Circuit where
  name : String
  qregs : List Reg
  cregs : List Reg
  ops : List CircuitOp
deriving DecidableEq, Repr

/-- A `QasmQobjInstruction` as produced by `assemble_circuits`.  `registerList`
is the (list-valued) `register` attribute given to measurements;
`registerIdx` is the (integer-valued) `register` attribute of a `bfunc`. -/
structure QobjInstr where
  name : String
  qubits : Option (List Nat) := none
  memory : Option (List Nat) := none
  registerList : Option (List Nat) := none
  mask : Option String := none
  relation : Option String := none
  val : Option String := none
  registerIdx : Option Nat := none
  conditional : Option Nat := none
deriving DecidableEq, Repr, Inhabited

/-- `"0x%X" % n`: `0x`-prefixed upper-case hexadecimal with no padding. -/
def hexString (n : Nat) : String :=
  "0x" ++ ((Nat.toDigits 16 n).map Char.toUpper).asString

/-- Python's `list.index`: position of the first occurrence of `x` in `l`. -/
def pyIndex {α : Type} [DecidableEq α] (l : List α) (x : α) : Nat := l.indexOf x

/-- The `mask` accumulated over `clbit_labels` for a condition on register
`cregName` (`mask |= (1 << clbit_labels.index(clbit))`). -/
def conditionMask (labels : List (String × Nat)) (cregName : String) : Nat :=
  labels.foldl
    (fun m clbit => if clbit.1 = cregName then m ||| (1 <<< pyIndex labels clbit) else m)
    0

/-- The `val` accumulated over `clbit_labels` for condition value `value` on
register `cregName`
(`val |= ((op.control[1] >> clbit[1]) & 1) << clbit_labels.index(clbit)`). -/
def conditionVal (labels : List (String × Nat)) (cregName : String) (value : Nat) : Nat :=
  labels.foldl
    (fun v clbit =>
      if clbit.1 = cregName then
        v ||| (((value >>> clbit.2) &&& 1) <<< pyIndex labels clbit)
      else v)
    0

/-- The `bfunc` instruction synthesized in front of a conditioned instruction. -/
def mkBfunc (labels : List (String × Nat)) (cregName : String) (value slot : Nat) :
    QobjInstr :=
  { name := "bfunc"
    mask := some (hexString (conditionMask labels cregName))
    relation := some "=="
    val := some (hexString (conditionVal labels cregName value))
    registerIdx := some slot }

/-- The unconditional part of lowering one circuit op: name, qubit indices
(`if qargs:`), memory indices (`if cargs:`) and — in a conditional experiment —
the `register` mirror of a measurement's memory indices. -/
def baseInstr (qlabels clabels : List (String × Nat)) (isCondExp : Bool)
    (op : CircuitOp) : QobjInstr :=
  let i0 : QobjInstr := { name := op.name }
  let i1 :=
    if op.qargs.isEmpty then i0
    else { i0 with qubits := some (op.qargs.map (fun q => pyIndex qlabels q)) }
  if op.cargs.isEmpty then i1
  else
    let clbitIndices := op.cargs.map (fun cb => pyIndex clabels cb)
    let i2 := { i1 with memory := some clbitIndices }
    if op.name = "measure" && isCondExp then
      { i2 with registerList := some clbitIndices }
    else i2

/-- The instruction loop of `assemble_circuits`: `condIdx` is the running
`max_conditional_idx`.  A conditioned op allocates slot
`memory_slots + max_conditional_idx`, emits the `bfunc` immediately before the
conditioned instruction, and increments the counter. -/
def lowerOps (qlabels clabels : List (String × Nat)) (memSlots : Nat)
    (isCondExp : Bool) : List CircuitOp → Nat → List QobjInstr
  | [], _ => []
  | op :: rest, condIdx =>
    let cur := baseInstr qlabels clabels isCondExp op
    match op.control with
    | none => cur :: lowerOps qlabels clabels memSlots isCondExp rest condIdx
    | some (cname, cval) =>
      let slot := memSlots + condIdx
      mkBfunc clabels cname cval slot ::
        { cur with conditional := some slot } ::
          lowerOps qlabels clabels memSlots isCondExp rest (condIdx + 1)

/-- `is_conditional_experiment`: whether any op of the circuit carries a
classical condition. -/
def isConditionalExperiment (c : Circuit) : Bool :=
  c.ops.any (fun op => op.control.isSome)

/-- The per-experiment instruction list produced by `assemble_circuits`. -/
def assembleCircuitInstructions (c : Circuit) : List QobjInstr :=
  lowerOps (qubitLabels c.qregs) (clbitLabels c.cregs) (memorySlots c.cregs)
    (isConditionalExperiment c) c.ops 0

/-- Number of conditional ops among the first `i` ops: the value of
`max_conditional_idx` when op `i` is reached. -/
def countCondBefore (ops : List CircuitOp) (i : Nat) : Nat :=
  ((ops.take i).filter (fun op => op.control.isSome)).length

end CircuitLowering

namespace PulseSchedule

/-- A pulse channel, equal by `(kind, index)`. -/
structure PChannel where
  kind : String
  index : Nat
deriving DecidableEq, Repr

/-- `TimedPulse`: a pulse command (its `duration`) on a channel with start
time context `t0`. -/
structure TimedPulse where
  channel : PChannel
  t0 : Nat
  duration : Nat
deriving DecidableEq, Repr

/-- `TimedPulse.end_time`. -/
def TimedPulse.endTime (tp : TimedPulse) : Nat := tp.t0 + tp.duration

/-- `Schedule.end_time`: `max([...], default=0)` over the children.  (This
source version supports only `TimedPulse` children; `_is_occupied_time`
raises `NotImplementedError` otherwise, so a schedule is its child list.) -/
def endTime (children : List TimedPulse) : Nat :=
  (children.map TimedPulse.endTime).foldr max 0

/-- `Schedule._is_occupied_time`: some existing pulse on the same channel has
`pulse.start_time() < timed_pulse.end_time() and
timed_pulse.start_time() < pulse.end_time()`. -/
def isOccupiedTime (children : List TimedPulse) (tp : TimedPulse) : Bool :=
  children.any (fun p =>
    p.channel = tp.channel && decide (p.t0 < tp.endTime) && decide (tp.t0 < p.endTime))

inductive ScheduleError
  | occupied
deriving DecidableEq, Repr

/-- `Schedule._add`: raises (returning the children untouched) when the slot
is occupied, else appends the new child. -/
def scheduleAdd (children : List TimedPulse) (tp : TimedPulse) :
    List TimedPulse × Option ScheduleError :=
  if isOccupiedTime children tp then (children, some .occupied)
  else (children ++ [tp], none)

/-- `Schedule.insert`: add a command on `channel` at an explicit `startTime`. -/
def scheduleInsert (children : List TimedPulse) (startTime cmdDuration : Nat)
    (channel : PChannel) : List TimedPulse × Option ScheduleError :=
  scheduleAdd children ⟨channel, startTime, cmdDuration⟩

/-- `Schedule.append`: add a command at `self.end_time()`. -/
def scheduleAppend (children : List TimedPulse) (cmdDuration : Nat)
    (channel : PChannel) : List TimedPulse × Option ScheduleError :=
  scheduleAdd children ⟨channel, endTime children, cmdDuration⟩

/-- Schedules reachable from the empty schedule by successful `append` and
`insert` calls. -/
inductive Reachable : List TimedPulse → Prop
  | empty : Reachable []
  | append (s : List TimedPulse) (d : Nat) (ch : PChannel) (s' : List TimedPulse) :
      Reachable s → scheduleAppend s d ch = (s', none) → Reachable s'
  | insert (s : List TimedPulse) (t d : Nat) (ch : PChannel) (s' : List TimedPulse) :
      Reachable s → scheduleInsert s t d ch = (s', none) → Reachable s'

/-- Two timed pulses on the same channel with overlapping time intervals. -/
def Overlaps (p q : TimedPulse) : Prop :=
  p.channel = q.channel ∧ p.t0 < q.endTime ∧ q.t0 < p.endTime

/-- The schedule invariant: no two non-zero-duration children on the same
channel occupy overlapping time intervals. -/
def NoChannelOverlap (s : List TimedPulse) : Prop :=
  s.Pairwise (fun p q => 0 < p.duration → 0 < q.duration → ¬ Overlaps p q)

end PulseSchedule

namespace PulseLowering

/-- The payload of an `Acquire` instruction: its command duration, acquire
channel index, and optional memory/register slot indices. -/
structure AcquireInst where
  duration : Nat
  channel : Nat
  memSlot : Option Nat
  regSlot : Option Nat
deriving DecidableEq, Repr

/-- A flattened schedule entry handed to `_assemble_instructions` (paired with
its start time).  `play` carries its sample vector (complex samples modelled
as an opaque byte-content list); `frame` stands for the remaining
directly-converted instruction kinds. -/
inductive PulseInst
  | play (samples : List Int) (channel : Nat)
  | acquire (a : AcquireInst)
  | delay (duration : Nat) (channel : Nat)
  | frame (tag : String) (channel : Nat)
deriving DecidableEq, Repr

/-- `hashlib.sha256(samples).hexdigest()`, the content key of the pulse
library.  sha256 is collision-free on the inputs of interest, i.e. injective;
it is modelled as the sample vector itself. -/
def sha256Digest (samples : List Int) : List Int := samples

/-- A `PulseQobjInstruction` as emitted by `_assemble_instructions`:
a pulse-library reference, a bundled acquire, or a directly-converted
instruction. -/
inductive QobjPulseInst
  | play (t0 : Nat) (nameKey : List Int) (channel : Nat)
  | acquireBundle (t0 duration : Nat) (qubits memSlots regSlots : List Nat)
  | frame (t0 : Nat) (tag : String) (channel : Nat)
deriving DecidableEq, Repr, Inhabited

/-- `user_pulselib`: a python dict from content digest to samples, in key
insertion order. -/
abbrev PulseLib := List (List Int × List Int)

/-- Python dict assignment `d[k] = v`: overwrite in place or append. -/
def dictInsert (lib : PulseLib) (k v : List Int) : PulseLib :=
  match lib with
  | [] => [(k, v)]
  | (k', v') :: rest =>
    if k' = k then (k', v) :: rest else (k', v') :: dictInsert rest k v

/-- The grouping key of `acquire_instruction_map`.  The source keys on
`(time, instruction.command)`; the `Acquire` command class is not under src/
and, per the spec, commands compare by their features, notably the duration —
so the key is modelled as `(start time, duration)`. -/
abbrev AcqKey := Nat × Nat

/-- `defaultdict(list)` append: extend the existing group for `key` or start a
new one at the end (dict iteration order is key first-insertion order). -/
def addAcquire (groups : List (AcqKey × List AcquireInst)) (key : AcqKey)
    (a : AcquireInst) : List (AcqKey × List AcquireInst) :=
  match groups with
  | [] => [(key, [a])]
  | (k, l) :: rest =>
    if k = key then (k, l ++ [a]) :: rest else (k, l) :: addAcquire rest key a

/-- The group currently recorded for `key` ([] when absent; groups are
created non-empty, so the two cases are distinguishable). -/
def lookVal (groups : List (AcqKey × List AcquireInst)) (key : AcqKey) :
    List AcquireInst :=
  match groups.find? (fun g => decide (g.1 = key)) with
  | some g => g.2
  | none => []

/-- `_bundle_channel_indices`: parallel channel list, plus the memory/register
slot indices of those acquires that carry one, in encounter order. -/
def bundleChannelIndices (instrs : List AcquireInst) :
    List Nat × List Nat × List Nat :=
  (instrs.map AcquireInst.channel,
   instrs.filterMap AcquireInst.memSlot,
   instrs.filterMap AcquireInst.regSlot)

/-- The loop state of `_assemble_instructions`. -/
structure AsmState where
  out : List QobjPulseInst
  maxMemorySlot : Nat
  groups : List (AcqKey × List AcquireInst)
  lib : PulseLib
deriving DecidableEq, Repr

/-- One iteration of the instruction loop of `_assemble_instructions`:
`Play` of a sample pulse is renamed by content digest and registered in the
library; acquires update `max_memory_slot` and are deferred into
`acquire_instruction_map`; delays are dropped; everything else is converted
in place. -/
def stepInst (st : AsmState) : Nat × PulseInst → AsmState
  | (time, .play samples ch) =>
    let name := sha256Digest samples
    { st with out := st.out ++ [.play time name ch],
              lib := dictInsert st.lib name samples }
  | (time, .acquire a) =>
    let st' :=
      match a.memSlot with
      | some m => { st with maxMemorySlot := max st.maxMemorySlot m }
      | none => st
    { st' with groups := addAcquire st'.groups (time, a.duration) a }
  | (_, .delay _ _) => st
  | (time, .frame tag ch) => { st with out := st.out ++ [.frame time tag ch] }

/-- The measured-qubit set of one acquire group. -/
def measuredQubits (instrs : List AcquireInst) : Finset Nat :=
  (instrs.map AcquireInst.channel).toFinset

/-- `_validate_meas_map` as a predicate: `true` iff no acquire group partially
intersects a must-acquire-together set (the source raises on
`intersection and intersection != meas_set`). -/
def validateMeasMap (groups : List (AcqKey × List AcquireInst))
    (measMap : List (List Nat)) : Bool :=
  groups.all (fun g =>
    measMap.all (fun m =>
      let inter := measuredQubits g.2 ∩ m.toFinset
      decide (inter = ∅) || decide (inter = m.toFinset)))

inductive CompilerError
  | invalidFreq
  | measMapViolation
deriving DecidableEq, Repr

/-- One bundled-acquire wire instruction for a finished group. -/
def mkBundle (g : AcqKey × List AcquireInst) : QobjPulseInst :=
  let (qs, ms, rs) := bundleChannelIndices g.2
  .acquireBundle g.1.1 g.1.2 qs ms rs

/-- `if hasattr(run_config, 'meas_map'): ...`: the validation outcome, `true`
when no measurement map is configured. -/
def measMapOk (measMap : Option (List (List Nat)))
    (groups : List (AcqKey × List AcquireInst)) : Bool :=
  match measMap with
  | some mm => validateMeasMap groups mm
  | none => true

/-- `_assemble_instructions`: run the loop, then — when acquires exist —
validate the measurement map (if the run config has one) and append one
bundled instruction per group, in group-creation order.  Returns the
converted instructions, the maximum used memory slot, and the updated shared
pulse library. -/
def assembleInstructions (sched : List (Nat × PulseInst))
    (measMap : Option (List (List Nat))) (lib : PulseLib) :
    Except CompilerError (List QobjPulseInst × Nat × PulseLib) :=
  let st := sched.foldl stepInst { out := [], maxMemorySlot := 0, groups := [], lib := lib }
  if st.groups.isEmpty then
    .ok (st.out, st.maxMemorySlot, st.lib)
  else if measMapOk measMap st.groups then
    .ok (st.out ++ st.groups.map mkBundle, st.maxMemorySlot, st.lib)
  else
    .error .measMapViolation

/-- The acquires of a flattened schedule that share grouping key
`(time, duration)`, in encounter order. -/
def acquiresWithKey (sched : List (Nat × PulseInst)) (time duration : Nat) :
    List AcquireInst :=
  sched.filterMap (fun ti =>
    match ti with
    | (t, .acquire a) => if t = time ∧ a.duration = duration then some a else none
    | _ => none)

/-- Whether an emitted wire instruction is the acquire bundle for key
`(time, duration)`. -/
def isBundleFor (time duration : Nat) : QobjPulseInst → Bool
  | .acquireBundle t d _ _ _ => t = time && d = duration
  | _ => false

/-- The pulse library accumulated over all schedules of a program
(`user_pulselib` is threaded through `_assemble_experiments`\'s loop).
Delivered regardless of measurement-map validation, which does not touch
the library. -/
def programPulseLib (prog : List (List (Nat × PulseInst))) : PulseLib :=
  prog.foldl
    (fun lib sched =>
      (sched.foldl stepInst { out := [], maxMemorySlot := 0, groups := [], lib := lib }).lib)
    []

/-- The per-schedule data consumed by the experiment-building part of
`_assemble_experiments`: header name, assembled instructions and maximum used
memory slot. -/
structure SchedDescr where
  name : String
  instructions : List QobjPulseInst
  maxMemorySlot : Nat
deriving DecidableEq, Repr

/-- A `PulseQobjExperiment`, with its optional per-experiment frequency
config of type `kappa` (the config payload is opaque to the claims). -/
structure PulseExperiment (kappa : Type) where
  headerName : String
  headerMemorySlots : Nat
  instructions : List QobjPulseInst
  config : Option kappa
deriving DecidableEq, Repr

/-- The experiment built for schedule `s` inside the loop of
`_assemble_experiments`, with its resolved frequency config. -/
def mkExperiment {kappa : Type} (s : SchedDescr) (cfg : Option kappa) :
    PulseExperiment kappa :=
  { headerName := s.name
    headerMemorySlots := s.maxMemorySlot + 1
    instructions := s.instructions
    config := cfg }

/-- The `for idx, schedule in enumerate(program.schedules)` loop: an
experiment per schedule; when overrides exist, schedule `idx` receives
`freq_configs[idx if len(freq_configs) != 1 else 0]`. -/
def buildExperimentList {kappa : Type} (freqConfigs : List kappa) :
    List SchedDescr → Nat → List (PulseExperiment kappa)
  | [], _ => []
  | s :: rest, idx =>
    mkExperiment s
      (if freqConfigs.isEmpty then none
       else freqConfigs.get? (if freqConfigs.length = 1 then 0 else idx)) ::
      buildExperimentList freqConfigs rest (idx + 1)

/-- The frequency-sweep step of `_assemble_experiments`: when overrides exist
and exactly one experiment was built, replicate it into one experiment per
override, sharing header and instruction list. -/
def applySweep {kappa : Type} (freqConfigs : List kappa)
    (exps : List (PulseExperiment kappa)) : List (PulseExperiment kappa) :=
  match exps, freqConfigs with
  | [e], c :: cs => (c :: cs).map (fun cfg => { e with config := some cfg })
  | _, _ => exps

/-- The experiment-shaping part of `_assemble_experiments`: the
override-count check, the per-schedule loop, and the frequency-sweep
replication for a single-schedule program. -/
def assembleExperiments {kappa : Type} (scheds : List SchedDescr)
    (freqConfigs : List kappa) : Except CompilerError (List (PulseExperiment kappa)) :=
  if scheds.length > 1 ∧
      ¬(freqConfigs.length = 0 ∨ freqConfigs.length = 1 ∨
        freqConfigs.length = scheds.length) then
    .error .invalidFreq
  else
    .ok (applySweep freqConfigs (buildExperimentList freqConfigs scheds 0))

end PulseLowering

namespace Builder

/-- An instruction recorded by the builder DSL into the pending
`instruction_list` (opaque payload). -/
structure BInst where
  tag : String
deriving DecidableEq, Repr

/-- Modelled from the spec: `alignment.align_left` (module
`qiskit/pulse/alignment` is not under src/) converts the pending batch into
one timed block.  The claims settled here depend only on the block\'s
provenance, not on its timing computation, so it is an opaque constructor. -/
inductive Block
  | aligned (batch : List BInst)
deriving DecidableEq, Repr

def alignLeft (batch : List BInst) : Block := .aligned batch

/-- Modelled from the spec: `Schedule.append(block, mutate=True)` of the
builder schedule ("append the transformed block"), as list append. -/
def scheduleAppendBlock (schedule : List Block) (b : Block) : List Block :=
  schedule ++ [b]

/-- An error raised by the body of a `with build(...)` block. -/
inductive BuildError
  | userError (msg : String)
deriving DecidableEq, Repr

/-- `context.build`: the body runs, accumulating the pending
`instruction_list` and either completing (`err = none`) or raising partway
(`err = some e`, `pending` the list built so far); the `finally:` block
unconditionally appends `align_left(*instruction_list)` to the schedule, and
the exception, if any, then propagates. -/
def buildRun (schedule : List Block) (pending : List BInst)
    (err : Option BuildError) : List Block × Option BuildError :=
  (scheduleAppendBlock schedule (alignLeft pending), err)

/-- Errors raised by builder DSL operations. -/
inductive BuilderError
  | notImplemented
deriving DecidableEq, Repr

/-- `builder.shift_frequency`: `raise NotImplementedError()`. -/
def shiftFrequency (frequency : ℚ) (channel : PulseSchedule.PChannel) :
    Except BuilderError Unit :=
  .error .notImplemented

/-- `builder.set_phase`: `raise NotImplementedError()`. -/
def setPhase (phase : ℚ) (channel : PulseSchedule.PChannel) :
    Except BuilderError Unit :=
  .error .notImplemented

/-- Entry into the `frequency_offset` context (the generator body before
`yield`): read `builder.block.duration`, then call `shift_frequency`.  The
`compensate_phase` flag only affects the exit path. -/
def frequencyOffsetEnter (blockDuration : Nat) (frequency : ℚ)
    (channel : PulseSchedule.PChannel) (compensatePhase : Bool) :
    Except BuilderError Unit := do
  let _t0 := blockDuration
  shiftFrequency frequency channel

end Builder

namespace CircuitLowering

/-- A two-conditional circuit over a 3-bit register: both ops are conditioned
on `c == 5`. -/
def exCircuitTwoCond : Circuit :=
  { name := "two-cond"
    qregs := [⟨"q", 1⟩]
    cregs := [⟨"c", 3⟩]
    ops := [⟨"x", [("q", 0)], [], some ("c", 5)⟩,
            ⟨"y", [("q", 0)], [], some ("c", 5)⟩] }

/-- A circuit with conditions on two registers of different widths (1 and 4
bits), so the two synthesized masks need hex strings of different lengths. -/
def exCircuitTwoRegs : Circuit :=
  { name := "two-regs"
    qregs := [⟨"q", 1⟩]
    cregs := [⟨"c", 1⟩, ⟨"d", 4⟩]
    ops := [⟨"x", [("q", 0)], [], some ("c", 1)⟩,
            ⟨"y", [("q", 0)], [], some ("d", 5)⟩] }

/-- A circuit with one conditional and one measurement. -/
def exCircuitCondMeasure : Circuit :=
  { name := "cond-measure"
    qregs := [⟨"q", 1⟩]
    cregs := [⟨"c", 1⟩]
    ops := [⟨"x", [("q", 0)], [], some ("c", 1)⟩,
            ⟨"measure", [("q", 0)], [("c", 0)], none⟩] }

end CircuitLowering

namespace CircuitLowering

theorem pyIndex_get {α : Type} [DecidableEq α] (l : List α) (x : α) (h : x ∈ l) :
    ∃ hlt : pyIndex l x < l.length, l.get ⟨pyIndex l x, hlt⟩ = x :=
  ⟨List.indexOf_lt_length.2 h, List.indexOf_get _⟩

theorem pyIndex_get_of_nodup {α : Type} [DecidableEq α] (l : List α) (hnd : l.Nodup)
    (p : Nat) (hp : p < l.length) : pyIndex l (l.get ⟨p, hp⟩) = p := by
  obtain ⟨hlt, hget⟩ := pyIndex_get l (l.get ⟨p, hp⟩) (l.get_mem _ _)
  simp only [List.get_eq_getElem] at hget ⊢
  exact (hnd.getElem_inj_iff).1 hget

theorem foldl_or_ite {α : Type} (P : α → Prop) [DecidablePred P] (g : α → Nat)
    (l : List α) (init : Nat) :
    l.foldl (fun m a => if P a then m ||| g a else m) init =
    l.foldl (fun m a => m ||| (if P a then g a else 0)) init := by
  induction l generalizing init with
  | nil => rfl
  | cons a t ih => by_cases h : P a <;> simp [h, ih, Nat.or_zero]

theorem foldl_or_testBit {α : Type} (g : α → Nat) (l : List α) (init p : Nat) :
    ((l.foldl (fun m a => m ||| g a) init).testBit p) =
      (init.testBit p || l.any (fun a => (g a).testBit p)) := by
  induction l generalizing init with
  | nil => simp
  | cons a t ih => simp [ih, Nat.testBit_or, Bool.or_assoc]

theorem testBit_one_shiftLeft (k p : Nat) : (1 <<< k).testBit p = decide (p = k) := by
  rw [Nat.one_shiftLeft, Nat.testBit_two_pow]
  simp [eq_comm]

theorem shiftRight_and_one (v j : Nat) : (v >>> j) &&& 1 = if v.testBit j then 1 else 0 := by
  have h : v.testBit j = decide (v / 2 ^ j % 2 = 1) := Nat.testBit_to_div_mod
  rw [Nat.and_one_is_mod, Nat.shiftRight_eq_div_pow]
  rcases hb : v.testBit j
  · rw [hb] at h; simp at h ⊢; omega
  · rw [hb] at h; simp at h ⊢; exact h

theorem shiftRight_and_one_true (v j : Nat) (h : v.testBit j = true) :
    (v >>> j) &&& 1 = 1 := by
  rw [shiftRight_and_one, h]; simp

theorem shiftRight_and_one_false (v j : Nat) (h : v.testBit j = false) :
    (v >>> j) &&& 1 = 0 := by
  rw [shiftRight_and_one, h]; simp

/-- The synthesized `mask` has exactly the bits of the positions of the
condition register's classical bits set (assuming distinct labels, which holds
whenever register names are distinct). -/
theorem conditionMask_testBit (labels : List (String × Nat)) (cregName : String)
    (hnd : labels.Nodup) (p : Nat) :
    (conditionMask labels cregName).testBit p = true ↔
      ∃ hp : p < labels.length, (labels.get ⟨p, hp⟩).1 = cregName := by
  unfold conditionMask
  rw [foldl_or_ite (fun clbit => clbit.1 = cregName)
    (fun clbit => 1 <<< pyIndex labels clbit), foldl_or_testBit]
  simp only [Nat.zero_testBit, Bool.false_or, List.any_eq_true]
  constructor
  · rintro ⟨a, ha, hbit⟩
    by_cases hc : a.1 = cregName
    · rw [if_pos hc, testBit_one_shiftLeft] at hbit
      obtain ⟨hlt, hget⟩ := pyIndex_get labels a ha
      have hp : p = pyIndex labels a := by simpa using hbit
      subst hp
      exact ⟨hlt, by rw [hget]; exact hc⟩
    · rw [if_neg hc] at hbit
      simp at hbit
  · rintro ⟨hp, hfst⟩
    refine ⟨labels.get ⟨p, hp⟩, labels.get_mem _ _, ?_⟩
    rw [if_pos hfst, testBit_one_shiftLeft, pyIndex_get_of_nodup labels hnd p hp]
    simp

/-- The synthesized `val` carries, at each position of the condition register's
classical bits, the corresponding bit of the condition value — the value
shifted into the register's bit positions. -/
theorem conditionVal_testBit (labels : List (String × Nat)) (cregName : String)
    (value : Nat) (hnd : labels.Nodup) (p : Nat) :
    (conditionVal labels cregName value).testBit p = true ↔
      ∃ hp : p < labels.length,
        (labels.get ⟨p, hp⟩).1 = cregName ∧
          value.testBit (labels.get ⟨p, hp⟩).2 = true := by
  unfold conditionVal
  rw [foldl_or_ite (fun clbit => clbit.1 = cregName)
    (fun clbit => ((value >>> clbit.2) &&& 1) <<< pyIndex labels clbit), foldl_or_testBit]
  simp only [Nat.zero_testBit, Bool.false_or, List.any_eq_true]
  constructor
  · rintro ⟨a, ha, hbit⟩
    by_cases hc : a.1 = cregName
    · rcases hv : value.testBit a.2 with _ | _
      · rw [if_pos hc, shiftRight_and_one_false _ _ hv] at hbit
        simp [Nat.zero_shiftLeft] at hbit
      · rw [if_pos hc, shiftRight_and_one_true _ _ hv, testBit_one_shiftLeft] at hbit
        obtain ⟨hlt, hget⟩ := pyIndex_get labels a ha
        have hp : p = pyIndex labels a := by simpa using hbit
        subst hp
        exact ⟨hlt, by rw [hget]; exact ⟨hc, hv⟩⟩
    · rw [if_neg hc] at hbit
      simp at hbit
  · rintro ⟨hp, hfst, hv⟩
    refine ⟨labels.get ⟨p, hp⟩, labels.get_mem _ _, ?_⟩
    rw [if_pos hfst, shiftRight_and_one_true _ _ hv, testBit_one_shiftLeft,
      pyIndex_get_of_nodup labels hnd p hp]
    simp

theorem countCondBefore_cons (op : CircuitOp) (rest : List CircuitOp) (j : Nat) :
    countCondBefore (op :: rest) (j + 1) =
      (if op.control.isSome then 1 else 0) + countCondBefore rest j := by
  simp only [countCondBefore, List.take_succ_cons, List.filter]
  cases op.control
  · simp
  · simp; omega

/-- Structure of the instruction loop around the `i`-th op when it is
conditioned: a `bfunc` for the condition is emitted immediately before it,
both referencing slot `memory_slots + (initial counter + number of earlier
conditional ops)`. -/
theorem lowerOps_cond_decomp (qlabels clabels : List (String × Nat)) (memSlots : Nat)
    (isCondExp : Bool) :
    ∀ (ops : List CircuitOp) (c0 i : Nat) (h : i < ops.length)
      (cname : String) (cval : Nat),
      (ops.get ⟨i, h⟩).control = some (cname, cval) →
      ∃ pre post,
        lowerOps qlabels clabels memSlots isCondExp ops c0 =
          pre ++ mkBfunc clabels cname cval (memSlots + (c0 + countCondBefore ops i)) ::
            { baseInstr qlabels clabels isCondExp (ops.get ⟨i, h⟩) with
                conditional := some (memSlots + (c0 + countCondBefore ops i)) } :: post := by
  intro ops
  induction ops with
  | nil => intro c0 i h; simp at h
  | cons op rest ih =>
    intro c0 i h cname cval hctrl
    match i with
    | 0 =>
      simp only [List.get] at hctrl
      refine ⟨[], lowerOps qlabels clabels memSlots isCondExp rest (c0 + 1), ?_⟩
      simp only [lowerOps, hctrl, countCondBefore, List.take, List.filter_nil,
        List.length_nil, Nat.add_zero, List.nil_append, List.get]
    | j + 1 =>
      have h' : j < rest.length := Nat.succ_lt_succ_iff.mp (by simpa using h)
      have hctrl' : (rest.get ⟨j, h'⟩).control = some (cname, cval) := by
        simpa using hctrl
      rcases hc : op.control with _ | pr
      · obtain ⟨pre, post, heq⟩ := ih c0 j h' cname cval hctrl'
        refine ⟨baseInstr qlabels clabels isCondExp op :: pre, post, ?_⟩
        simp only [lowerOps, hc, countCondBefore_cons, Option.isSome_none,
          Bool.false_eq_true, if_false, Nat.zero_add, List.get, List.cons_append]
        rw [heq]
      · obtain ⟨pre, post, heq⟩ := ih (c0 + 1) j h' cname cval hctrl'
        refine ⟨mkBfunc clabels pr.1 pr.2 (memSlots + c0) ::
          { baseInstr qlabels clabels isCondExp op with
              conditional := some (memSlots + c0) } :: pre, post, ?_⟩
        have harith : c0 + countCondBefore (op :: rest) (j + 1) =
            (c0 + 1) + countCondBefore rest j := by
          rw [countCondBefore_cons, hc]
          simp
          omega
        simp only [lowerOps, hc, List.get, List.cons_append, harith]
        rw [heq]

/-- C1: for every circuit instruction carrying a classical condition
`(cname, cval)` (the `i`-th op of the circuit), circuit lowering allocates
the virtual condition-slot `memory_slots + (number of earlier conditional
instructions)` — the per-circuit counter starts at 0 and increments once per
conditional instruction, so a second conditional gets an index one greater —
and emits immediately before the conditioned instruction a `bfunc` whose
mask covers exactly the condition register's bit positions, whose val is the
condition value shifted into those positions, whose relation is `"=="` and
whose register field is the allocated slot; the conditioned instruction's
`conditional` field references that same slot. -/
theorem c1_conditional_slot_and_bfunc (c : Circuit) (i : Nat) (h : i < c.ops.length)
    (cname : String) (cval : Nat)
    (hctrl : (c.ops.get ⟨i, h⟩).control = some (cname, cval))
    (hnd : (clbitLabels c.cregs).Nodup) :
    (∃ pre post,
      assembleCircuitInstructions c =
        pre ++ mkBfunc (clbitLabels c.cregs) cname cval
            (memorySlots c.cregs + countCondBefore c.ops i) ::
          { baseInstr (qubitLabels c.qregs) (clbitLabels c.cregs)
              (isConditionalExperiment c) (c.ops.get ⟨i, h⟩) with
              conditional := some (memorySlots c.cregs + countCondBefore c.ops i) } ::
            post) ∧
    (∀ p, (conditionMask (clbitLabels c.cregs) cname).testBit p = true ↔
        ∃ hp : p < (clbitLabels c.cregs).length,
          ((clbitLabels c.cregs).get ⟨p, hp⟩).1 = cname) ∧
    (∀ p, (conditionVal (clbitLabels c.cregs) cname cval).testBit p = true ↔
        ∃ hp : p < (clbitLabels c.cregs).length,
          ((clbitLabels c.cregs).get ⟨p, hp⟩).1 = cname ∧
            cval.testBit ((clbitLabels c.cregs).get ⟨p, hp⟩).2 = true) := by
  refine ⟨?_, fun p => conditionMask_testBit _ _ hnd p,
    fun p => conditionVal_testBit _ _ _ hnd p⟩
  have hdec := lowerOps_cond_decomp (qubitLabels c.qregs) (clbitLabels c.cregs)
    (memorySlots c.cregs) (isConditionalExperiment c) c.ops 0 i h cname cval hctrl
  simpa [assembleCircuitInstructions] using hdec

/-- Witness for C1 on `exCircuitTwoCond` (register width 3, condition value 5,
second conditional): the second conditional gets slot `3 + 1 = 4`, one
greater than the first. -/
theorem c1_witness :
    ∃ pre post,
      assembleCircuitInstructions exCircuitTwoCond =
        pre ++ mkBfunc (clbitLabels [⟨"c", 3⟩]) "c" 5 4 ::
          { baseInstr (qubitLabels [⟨"q", 1⟩]) (clbitLabels [⟨"c", 3⟩]) true
              ⟨"y", [("q", 0)], [], some ("c", 5)⟩ with
              conditional := some 4 } :: post :=
  (c1_conditional_slot_and_bfunc exCircuitTwoCond 1 (by decide) "c" 5 (by decide)
    (by decide)).1

/-- C7 counterexample: in `exCircuitTwoRegs` the two emitted `bfunc`
instructions carry mask strings `"0x1"` and `"0x1E"` of different lengths —
mask/val are not fixed-width (`"0x%X"` uses no padding), so the claim as
stated is false. -/
theorem c7_counterexample :
    ((assembleCircuitInstructions exCircuitTwoRegs).getD 0 default).name = "bfunc" ∧
    ((assembleCircuitInstructions exCircuitTwoRegs).getD 2 default).name = "bfunc" ∧
    ((assembleCircuitInstructions exCircuitTwoRegs).getD 0 default).mask = some "0x1" ∧
    ((assembleCircuitInstructions exCircuitTwoRegs).getD 2 default).mask = some "0x1E" ∧
    ("0x1".length ≠ "0x1E".length) := by
  refine ⟨rfl, rfl, rfl, rfl, by decide⟩

/-- C7 (amended): in every emitted bit-test (`bfunc`) instruction, the mask
and val fields are the `"0x"`-prefixed upper-case hexadecimal encodings of
the synthesized mask and value — of minimal width, not padded to a fixed
width — the relation field is `"=="`, and the register field is the
condition-slot index. -/
theorem c7_bfunc_encoding (c : Circuit) (i : Nat) (h : i < c.ops.length)
    (cname : String) (cval : Nat)
    (hctrl : (c.ops.get ⟨i, h⟩).control = some (cname, cval)) :
    ∃ pre post,
      assembleCircuitInstructions c =
        pre ++
          { name := "bfunc"
            mask := some ("0x" ++
              ((Nat.toDigits 16 (conditionMask (clbitLabels c.cregs) cname)).map
                Char.toUpper).asString)
            relation := some "=="
            val := some ("0x" ++
              ((Nat.toDigits 16 (conditionVal (clbitLabels c.cregs) cname cval)).map
                Char.toUpper).asString)
            registerIdx := some (memorySlots c.cregs + countCondBefore c.ops i) } ::
          { baseInstr (qubitLabels c.qregs) (clbitLabels c.cregs)
              (isConditionalExperiment c) (c.ops.get ⟨i, h⟩) with
              conditional := some (memorySlots c.cregs + countCondBefore c.ops i) } ::
            post := by
  have hdec := lowerOps_cond_decomp (qubitLabels c.qregs) (clbitLabels c.cregs)
    (memorySlots c.cregs) (isConditionalExperiment c) c.ops 0 i h cname cval hctrl
  simpa [assembleCircuitInstructions, mkBfunc, hexString] using hdec

/-- Witness for C7 on `exCircuitTwoRegs`: the second conditional's `bfunc`
carries `mask = "0x1E"`, `val = "0x1A"` (unpadded hex of 26), relation `"=="`
and register slot `5 + 1`. -/
theorem c7_witness :
    ∃ pre post,
      assembleCircuitInstructions exCircuitTwoRegs =
        pre ++
          { name := "bfunc"
            mask := some ("0x" ++
              ((Nat.toDigits 16 (conditionMask (clbitLabels [⟨"c", 1⟩, ⟨"d", 4⟩]) "d")).map
                Char.toUpper).asString)
            relation := some "=="
            val := some ("0x" ++
              ((Nat.toDigits 16 (conditionVal (clbitLabels [⟨"c", 1⟩, ⟨"d", 4⟩]) "d" 5)).map
                Char.toUpper).asString)
            registerIdx := some 6 } ::
          { baseInstr (qubitLabels [⟨"q", 1⟩]) (clbitLabels [⟨"c", 1⟩, ⟨"d", 4⟩]) true
              ⟨"y", [("q", 0)], [], some ("d", 5)⟩ with
              conditional := some 6 } :: post :=
  c7_bfunc_encoding exCircuitTwoRegs 1 (by decide) "d" 5 (by decide)

theorem baseInstr_name (qlabels clabels : List (String × Nat)) (isCondExp : Bool)
    (op : CircuitOp) : (baseInstr qlabels clabels isCondExp op).name = op.name := by
  unfold baseInstr
  by_cases hq : op.qargs.isEmpty <;> by_cases hc : op.cargs.isEmpty <;>
    simp [hq, hc] <;> split <;> simp

theorem baseInstr_memory_isSome (qlabels clabels : List (String × Nat))
    (isCondExp : Bool) (op : CircuitOp) :
    (baseInstr qlabels clabels isCondExp op).memory.isSome = !op.cargs.isEmpty := by
  unfold baseInstr
  by_cases hq : op.qargs.isEmpty <;> by_cases hc : op.cargs.isEmpty <;>
    simp [hq, hc] <;> split <;> simp

theorem baseInstr_registerList_isSome (qlabels clabels : List (String × Nat))
    (isCondExp : Bool) (op : CircuitOp) :
    (baseInstr qlabels clabels isCondExp op).registerList.isSome =
      (isCondExp && (op.name == "measure") && !op.cargs.isEmpty) := by
  unfold baseInstr
  by_cases hq : op.qargs.isEmpty <;> by_cases hc : op.cargs.isEmpty <;>
    by_cases hm : op.name = "measure" <;> by_cases he : isCondExp = true <;>
    simp_all

theorem lowerOps_registerList (qlabels clabels : List (String × Nat))
    (memSlots : Nat) (isCondExp : Bool) :
    ∀ (ops : List CircuitOp) (condIdx : Nat),
      ∀ instr ∈ lowerOps qlabels clabels memSlots isCondExp ops condIdx,
        instr.registerList.isSome =
          (isCondExp && (instr.name == "measure") && instr.memory.isSome) := by
  intro ops
  induction ops with
  | nil => intro condIdx instr hmem; simp [lowerOps] at hmem
  | cons op rest ih =>
    intro condIdx instr hmem
    rcases hc : op.control with _ | pr
    · rw [lowerOps, hc] at hmem
      rcases List.mem_cons.mp hmem with rfl | hmem
      · rw [baseInstr_registerList_isSome, baseInstr_name, baseInstr_memory_isSome]
      · exact ih condIdx instr hmem
    · rw [lowerOps, hc] at hmem
      rcases List.mem_cons.mp hmem with rfl | hmem
      · simp [mkBfunc]
      rcases List.mem_cons.mp hmem with rfl | hmem
      · show (baseInstr qlabels clabels isCondExp op).registerList.isSome = _
        rw [baseInstr_registerList_isSome, baseInstr_name, baseInstr_memory_isSome]
      · exact ih (condIdx + 1) instr hmem

/-- C8: in the lowered instruction list of a circuit, the (list-valued)
`register` field is set exactly on the measurement instructions of a circuit
that contains at least one conditional instruction — a circuit-wide, not
per-instruction, decision.  In particular, with no conditional in the
circuit no measurement gets a register field, and with one every measurement
(every instruction named `"measure"` carrying a memory field) does. -/
theorem c8_measure_register_mirror (c : Circuit) :
    ∀ instr ∈ assembleCircuitInstructions c,
      instr.registerList.isSome =
        (isConditionalExperiment c && (instr.name == "measure") &&
          instr.memory.isSome) := by
  intro instr hmem
  exact lowerOps_registerList _ _ _ _ c.ops 0 instr hmem

/-- Witness for C8 on `exCircuitCondMeasure`: the measurement of a circuit
with a conditional gets its register field set. -/
theorem c8_witness :
    (({ name := "measure", qubits := some [0], memory := some [0],
        registerList := some [0] } : QobjInstr).registerList.isSome) =
      (isConditionalExperiment exCircuitCondMeasure &&
        (({ name := "measure", qubits := some [0], memory := some [0],
            registerList := some [0] } : QobjInstr).name == "measure") &&
        ({ name := "measure", qubits := some [0], memory := some [0],
           registerList := some [0] } : QobjInstr).memory.isSome) :=
  c8_measure_register_mirror exCircuitCondMeasure
    { name := "measure", qubits := some [0], memory := some [0],
      registerList := some [0] } (by decide)

end CircuitLowering

namespace PulseSchedule

theorem scheduleAdd_ok {s : List TimedPulse} {tp : TimedPulse} {s' : List TimedPulse}
    (heq : scheduleAdd s tp = (s', none)) :
    isOccupiedTime s tp = false ∧ s' = s ++ [tp] := by
  unfold scheduleAdd at heq
  split at heq
  · simp at heq
  · rename_i hocc
    cases heq
    exact ⟨by simpa using hocc, rfl⟩

theorem occupied_of_overlap {s : List TimedPulse} {tp : TimedPulse}
    (h : ∃ p ∈ s, Overlaps p tp) : isOccupiedTime s tp = true := by
  obtain ⟨p, hp, hov⟩ := h
  unfold isOccupiedTime
  rw [List.any_eq_true]
  exact ⟨p, hp, by simp [hov.1, hov.2.1, hov.2.2]⟩

theorem noChannelOverlap_add {s : List TimedPulse} {tp : TimedPulse}
    {s' : List TimedPulse} (heq : scheduleAdd s tp = (s', none))
    (h : NoChannelOverlap s) : NoChannelOverlap s' := by
  obtain ⟨hocc, rfl⟩ := scheduleAdd_ok heq
  unfold NoChannelOverlap
  rw [List.pairwise_append]
  refine ⟨h, List.pairwise_singleton _ _, ?_⟩
  intro p hp q hq
  simp only [List.mem_singleton] at hq
  intro hdp hdq hov
  rw [hq] at hov
  have htrue : isOccupiedTime s tp = true := occupied_of_overlap ⟨p, hp, hov⟩
  rw [hocc] at htrue
  exact Bool.false_ne_true htrue

/-- C5: every schedule reachable by any sequence of `append` and `insert`
operations satisfies the invariant that no two non-zero-duration instructions
on the same channel occupy overlapping time intervals; and an `insert` or
`append` whose new timed instruction would overlap an existing instruction on
the same channel fails with a conflict error and leaves the schedule's
children unchanged. -/
theorem c5_schedule_no_overlap :
    (∀ s : List TimedPulse, Reachable s → NoChannelOverlap s) ∧
    (∀ (s : List TimedPulse) (t d : Nat) (ch : PChannel),
      (∃ p ∈ s, Overlaps p ⟨ch, t, d⟩) →
      scheduleInsert s t d ch = (s, some ScheduleError.occupied)) ∧
    (∀ (s : List TimedPulse) (d : Nat) (ch : PChannel),
      (∃ p ∈ s, Overlaps p ⟨ch, endTime s, d⟩) →
      scheduleAppend s d ch = (s, some ScheduleError.occupied)) := by
  refine ⟨?_, ?_, ?_⟩
  · intro s h
    induction h with
    | empty => exact List.Pairwise.nil
    | append s d ch s' hr heq ih => exact noChannelOverlap_add heq ih
    | insert s t d ch s' hr heq ih => exact noChannelOverlap_add heq ih
  · intro s t d ch hov
    unfold scheduleInsert scheduleAdd
    rw [occupied_of_overlap hov]
    rfl
  · intro s d ch hov
    unfold scheduleAppend scheduleAdd
    rw [occupied_of_overlap hov]
    rfl

/-- Witness for C5: the singleton schedule built by one successful `append`
satisfies the invariant, and an `insert` overlapping it on the same channel
fails with the conflict error, returning the children unchanged. -/
theorem c5_witness :
    NoChannelOverlap [⟨⟨"d", 0⟩, 0, 2⟩] ∧
    scheduleInsert [⟨⟨"d", 0⟩, 0, 2⟩] 1 2 ⟨"d", 0⟩ =
      ([⟨⟨"d", 0⟩, 0, 2⟩], some ScheduleError.occupied) :=
  ⟨c5_schedule_no_overlap.1 _
      (Reachable.append [] 2 ⟨"d", 0⟩ _ Reachable.empty (by decide)),
   c5_schedule_no_overlap.2.1 _ 1 2 ⟨"d", 0⟩
      ⟨⟨⟨"d", 0⟩, 0, 2⟩, by decide, by decide, by decide, by decide⟩⟩

end PulseSchedule

namespace PulseLowering

theorem buildExperimentList_length {kappa : Type} (freqConfigs : List kappa) :
    ∀ (scheds : List SchedDescr) (idx : Nat),
      (buildExperimentList freqConfigs scheds idx).length = scheds.length := by
  intro scheds
  induction scheds with
  | nil => intro idx; rfl
  | cons s rest ih => intro idx; simp [buildExperimentList, ih]

theorem applySweep_of_not_single {kappa : Type} (freqConfigs : List kappa)
    (exps : List (PulseExperiment kappa)) (h : exps.length ≠ 1) :
    applySweep freqConfigs exps = exps := by
  rcases exps with _ | ⟨e, _ | ⟨e2, t⟩⟩ <;> rcases freqConfigs with _ | ⟨c, cs⟩ <;>
    first
    | rfl
    | exact absurd rfl h

/-- With a non-empty, non-singleton override list covering all schedules, the
per-schedule loop pairs schedule `idx` with override `idx`. -/
theorem buildExperimentList_pairing {kappa : Type} (freq : List kappa)
    (hne : freq.length ≠ 1) (hnemp : freq ≠ []) :
    ∀ (scheds : List SchedDescr) (idx : Nat),
      idx + scheds.length ≤ freq.length →
      buildExperimentList freq scheds idx =
        (scheds.zip (freq.drop idx)).map (fun sc => mkExperiment sc.1 (some sc.2)) := by
  intro scheds
  induction scheds with
  | nil => intro idx h; rfl
  | cons s rest ih =>
    intro idx h
    have hidx : idx < freq.length := by
      simp only [List.length_cons] at h
      omega
    have hconf :
        (if freq.isEmpty then none
         else freq.get? (if freq.length = 1 then 0 else idx)) = some freq[idx] := by
      rw [if_neg (by simp [List.isEmpty_iff, hnemp]), if_neg hne,
        List.get?_eq_getElem?, List.getElem?_eq_getElem hidx]
    rw [buildExperimentList, hconf, List.drop_eq_getElem_cons hidx]
    simp only [List.zip_cons_cons, List.map_cons, List.cons.injEq]
    exact ⟨by trivial, ih (idx + 1) (by simp only [List.length_cons] at h; omega)⟩

/-- C2: pulse lowering of a program with more than one schedule fails with the
configuration error exactly when the number of per-schedule frequency
overrides is not 0, not 1 and not the schedule count; one schedule with
overrides `cfg :: cfgs` is lowered to one experiment per override, all sharing
the schedule's instruction list and header (a frequency sweep); `N > 1`
schedules with `N` overrides yield `N` experiments with overrides paired to
schedules in input order. -/
theorem c2_frequency_resolution {kappa : Type} :
    (∀ (scheds : List SchedDescr) (freq : List kappa), 1 < scheds.length →
      (assembleExperiments scheds freq = Except.error CompilerError.invalidFreq ↔
        (freq.length ≠ 0 ∧ freq.length ≠ 1 ∧ freq.length ≠ scheds.length))) ∧
    (∀ (s : SchedDescr) (cfg : kappa) (cfgs : List kappa),
      assembleExperiments [s] (cfg :: cfgs) =
        Except.ok ((cfg :: cfgs).map (fun c => mkExperiment s (some c)))) ∧
    (∀ (scheds : List SchedDescr) (freq : List kappa),
      1 < scheds.length → scheds.length = freq.length →
      assembleExperiments scheds freq =
        Except.ok ((scheds.zip freq).map (fun sc => mkExperiment sc.1 (some sc.2)))) := by
  refine ⟨?_, ?_, ?_⟩
  · intro scheds freq hlen
    constructor
    · intro herr
      unfold assembleExperiments at herr
      split at herr
      · rename_i hcond
        push_neg at hcond
        exact hcond.2
      · exact absurd herr (by simp)
    · intro ⟨h0, h1, hn⟩
      unfold assembleExperiments
      rw [if_pos ⟨hlen, by push_neg; exact ⟨h0, h1, hn⟩⟩]
  · intro s cfg cfgs
    unfold assembleExperiments
    rw [if_neg (by simp)]
    have hbuild : buildExperimentList (cfg :: cfgs) [s] 0 =
        [mkExperiment s (some cfg)] := by
      unfold buildExperimentList
      rw [if_neg (by simp)]
      simp [ite_self, buildExperimentList]
    rw [hbuild]
    unfold applySweep
    simp [mkExperiment]
  · intro scheds freq hlen hn
    unfold assembleExperiments
    rw [if_neg (by
      push_neg
      intro _
      exact Or.inr (Or.inr hn.symm))]
    rw [buildExperimentList_pairing freq (by omega) (by
        intro hemp
        rw [hemp] at hn
        simp only [List.length_nil] at hn
        omega) scheds 0 (by omega)]
    rw [applySweep_of_not_single _ _ (by
      rw [List.length_map, List.length_zip, List.drop_zero, ← hn, min_self]
      omega)]
    rw [List.drop_zero]

/-- Witness for C2 (the spec's example shapes): 2 schedules + 3 overrides is a
configuration error; 1 schedule + 3 overrides is a 3-experiment frequency
sweep sharing instructions and header; 3 schedules + 3 overrides pair up in
input order. -/
theorem c2_witness :
    (assembleExperiments [⟨"s1", [], 0⟩, ⟨"s2", [], 0⟩] ([10, 20, 30] : List Nat) =
      Except.error CompilerError.invalidFreq) ∧
    (assembleExperiments [⟨"s1", [], 0⟩] [10, 20, 30] =
      Except.ok ([10, 20, 30].map (fun c => mkExperiment ⟨"s1", [], 0⟩ (some c)))) ∧
    (assembleExperiments [⟨"s1", [], 0⟩, ⟨"s2", [], 0⟩, ⟨"s3", [], 0⟩] [10, 20, 30] =
      Except.ok (([(⟨"s1", [], 0⟩ : SchedDescr), ⟨"s2", [], 0⟩, ⟨"s3", [], 0⟩].zip
          [10, 20, 30]).map (fun sc => mkExperiment sc.1 (some sc.2)))) :=
  ⟨(c2_frequency_resolution.1 _ _ (by decide)).mpr ⟨by decide, by decide, by decide⟩,
   c2_frequency_resolution.2.1 _ 10 [20, 30],
   c2_frequency_resolution.2.2 _ _ (by decide) (by decide)⟩

theorem validateMeasMap_eq_false (groups : List (AcqKey × List AcquireInst))
    (mm : List (List Nat)) :
    validateMeasMap groups mm = false ↔
      ∃ g ∈ groups, ∃ m ∈ mm,
        (measuredQubits g.2 ∩ m.toFinset).Nonempty ∧
          measuredQubits g.2 ∩ m.toFinset ≠ m.toFinset := by
  unfold validateMeasMap
  rw [List.all_eq_false]
  constructor
  · rintro ⟨g, hg, hfail⟩
    rw [Bool.not_eq_true, List.all_eq_false] at hfail
    obtain ⟨m, hm, hinner⟩ := hfail
    rw [Bool.not_eq_true, Bool.or_eq_false_iff, decide_eq_false_iff_not,
      decide_eq_false_iff_not] at hinner
    exact ⟨g, hg, m, hm, Finset.nonempty_iff_ne_empty.mpr hinner.1, hinner.2⟩
  · rintro ⟨g, hg, m, hm, hne, hneq⟩
    refine ⟨g, hg, ?_⟩
    rw [Bool.not_eq_true, List.all_eq_false]
    refine ⟨m, hm, ?_⟩
    rw [Bool.not_eq_true, Bool.or_eq_false_iff, decide_eq_false_iff_not,
      decide_eq_false_iff_not]
    exact ⟨Finset.nonempty_iff_ne_empty.mp hne, hneq⟩

/-- C3: with a measurement map configured, pulse lowering of a schedule fails
with the validation error exactly when some acquire group (instructions
sharing one grouping key) has a measured-qubit set whose intersection with
some device-declared must-acquire-together set is neither empty nor the whole
device set; groups that are disjoint from, or fully cover, every device set
are accepted. -/
theorem c3_meas_map_validation (sched : List (Nat × PulseInst))
    (mm : List (List Nat)) (lib : PulseLib) :
    (assembleInstructions sched (some mm) lib =
        Except.error CompilerError.measMapViolation ↔
      ∃ g ∈ (sched.foldl stepInst
          { out := [], maxMemorySlot := 0, groups := [], lib := lib }).groups,
        ∃ m ∈ mm,
          (measuredQubits g.2 ∩ m.toFinset).Nonempty ∧
            measuredQubits g.2 ∩ m.toFinset ≠ m.toFinset) ∧
    (∀ e, assembleInstructions sched (some mm) lib = Except.error e →
      e = CompilerError.measMapViolation) := by
  refine ⟨?_, ?_⟩
  case refine_2 =>
    intro e he
    simp only [assembleInstructions] at he
    split at he
    · exact absurd he (by simp)
    · split at he
      · exact absurd he (by simp)
      · cases he
        rfl
  unfold assembleInstructions
  have hred : measMapOk (some mm) (sched.foldl stepInst
      { out := [], maxMemorySlot := 0, groups := [], lib := lib }).groups =
      validateMeasMap (sched.foldl stepInst
        { out := [], maxMemorySlot := 0, groups := [], lib := lib }).groups mm := rfl
  by_cases hemp : (sched.foldl stepInst
      { out := [], maxMemorySlot := 0, groups := [], lib := lib }).groups.isEmpty
  · rw [if_pos hemp]
    rw [List.isEmpty_iff] at hemp
    simp [hemp]
  · rw [if_neg hemp, hred]
    by_cases hval : validateMeasMap (sched.foldl stepInst
        { out := [], maxMemorySlot := 0, groups := [], lib := lib }).groups mm
    · rw [if_pos hval]
      constructor
      · intro h; exact absurd h (by simp)
      · intro hex
        rw [← validateMeasMap_eq_false] at hex
        rw [hval] at hex
        exact absurd hex (by simp)
    · rw [if_neg hval]
      simp only [true_iff]
      exact (validateMeasMap_eq_false _ _).mp (Bool.eq_false_iff.mpr hval)

/-- Witness for C3 (the spec's example): device set `{0, 1}`, acquiring qubit
0 alone fails with the validation error. -/
theorem c3_witness :
    assembleInstructions [(0, PulseInst.acquire ⟨10, 0, some 0, none⟩)]
        (some [[0, 1]]) [] =
      Except.error CompilerError.measMapViolation :=
  (c3_meas_map_validation _ _ _).1.mpr
    ⟨((0, 10), [⟨10, 0, some 0, none⟩]), by decide, [0, 1], by decide,
      by decide, by decide⟩

theorem addAcquire_lookVal_same (groups : List (AcqKey × List AcquireInst))
    (key : AcqKey) (a : AcquireInst) :
    lookVal (addAcquire groups key a) key = lookVal groups key ++ [a] := by
  induction groups with
  | nil => simp [addAcquire, lookVal, List.find?]
  | cons g rest ih =>
    by_cases hk : g.1 = key
    · simp [addAcquire, hk, lookVal, List.find?]
    · simp only [addAcquire]
      rw [if_neg (by exact fun h => hk (by rw [h]))]
      simp only [lookVal, List.find?] at ih ⊢
      rw [show (decide (g.1 = key)) = false from decide_eq_false hk]
      exact ih

theorem addAcquire_lookVal_other (groups : List (AcqKey × List AcquireInst))
    (key other : AcqKey) (a : AcquireInst) (hne : other ≠ key) :
    lookVal (addAcquire groups key a) other = lookVal groups other := by
  induction groups with
  | nil =>
    simp [addAcquire, lookVal, List.find?,
      show (decide (key = other)) = false from decide_eq_false (fun h => hne h.symm)]
  | cons g rest ih =>
    by_cases hk : g.1 = key
    · simp only [addAcquire, if_pos hk, lookVal, List.find?]
      rw [show (decide (g.1 = other)) = false from decide_eq_false
        (by rw [hk]; exact fun h => hne h.symm)]
    · simp only [addAcquire, if_neg hk, lookVal, List.find?] at ih ⊢
      by_cases hg : g.1 = other
      · rw [show (decide (g.1 = other)) = true from decide_eq_true hg]
      · rw [show (decide (g.1 = other)) = false from decide_eq_false hg]
        exact ih

theorem stepInst_groups_acquire (st : AsmState) (t : Nat) (a : AcquireInst) :
    (stepInst st (t, PulseInst.acquire a)).groups =
      addAcquire st.groups (t, a.duration) a := by
  cases hm : a.memSlot <;> simp [stepInst, hm]

theorem foldl_stepInst_lookVal :
    ∀ (sched : List (Nat × PulseInst)) (st : AsmState) (key : AcqKey),
      lookVal ((sched.foldl stepInst st).groups) key =
        lookVal st.groups key ++ acquiresWithKey sched key.1 key.2 := by
  intro sched
  induction sched with
  | nil => intro st key; simp [acquiresWithKey]
  | cons ti rest ih =>
    intro st key
    obtain ⟨t, inst⟩ := ti
    cases inst with
    | play samples ch =>
      rw [List.foldl_cons, ih]
      simp [stepInst, acquiresWithKey]
    | acquire a =>
      rw [List.foldl_cons, ih, stepInst_groups_acquire]
      by_cases hk : (t, a.duration) = key
      · rw [hk, addAcquire_lookVal_same]
        have hcond : t = key.1 ∧ a.duration = key.2 := by
          rw [← hk]; exact ⟨rfl, rfl⟩
        simp only [acquiresWithKey, List.filterMap_cons, if_pos hcond]
        rw [List.append_assoc]
        rfl
      · rw [addAcquire_lookVal_other _ _ _ _ (fun h => hk h.symm)]
        have hcond : ¬(t = key.1 ∧ a.duration = key.2) := by
          intro ⟨h1, h2⟩
          exact hk (Prod.ext h1 h2)
        simp only [acquiresWithKey, List.filterMap_cons, if_neg hcond]
    | delay dd ch =>
      rw [List.foldl_cons, ih]
      simp [stepInst, acquiresWithKey]
    | frame tag ch =>
      rw [List.foldl_cons, ih]
      simp [stepInst, acquiresWithKey]

theorem addAcquire_keys (groups : List (AcqKey × List AcquireInst)) (key : AcqKey)
    (a : AcquireInst) :
    (addAcquire groups key a).map Prod.fst =
      if key ∈ groups.map Prod.fst then groups.map Prod.fst
      else groups.map Prod.fst ++ [key] := by
  induction groups with
  | nil => simp [addAcquire]
  | cons g rest ih =>
    by_cases hk : g.1 = key
    · simp [addAcquire, hk]
    · simp only [addAcquire, if_neg hk, List.map_cons, ih]
      by_cases hmem : key ∈ rest.map Prod.fst
      · rw [if_pos hmem, if_pos (by simp [hmem])]
      · rw [if_neg hmem, if_neg (by
          simp only [List.mem_cons]
          rintro (h | h)
          · exact hk h.symm
          · exact hmem h)]
        rfl

theorem addAcquire_wf (groups : List (AcqKey × List AcquireInst)) (key : AcqKey)
    (a : AcquireInst) (hnd : (groups.map Prod.fst).Nodup)
    (hne : ∀ g ∈ groups, g.2 ≠ []) :
    ((addAcquire groups key a).map Prod.fst).Nodup ∧
      ∀ g ∈ addAcquire groups key a, g.2 ≠ [] := by
  constructor
  · rw [addAcquire_keys]
    by_cases hmem : key ∈ groups.map Prod.fst
    · rw [if_pos hmem]; exact hnd
    · rw [if_neg hmem]
      simp [List.nodup_append, hnd, hmem]
  · intro g hg
    induction groups with
    | nil =>
      simp only [addAcquire, List.mem_singleton] at hg
      subst hg; simp
    | cons g0 rest ih =>
      by_cases hk : g0.1 = key
      · rw [addAcquire, if_pos hk] at hg
        rcases List.mem_cons.mp hg with rfl | hmem
        · simp
        · exact hne _ (List.mem_cons_of_mem _ hmem)
      · rw [addAcquire, if_neg hk] at hg
        rcases List.mem_cons.mp hg with rfl | hmem
        · exact hne _ (List.mem_cons_self _ _)
        · exact ih (by
            rw [List.map_cons, List.nodup_cons] at hnd
            exact hnd.2) (fun x hx => hne x (List.mem_cons_of_mem _ hx)) hmem

theorem foldl_stepInst_wf :
    ∀ (sched : List (Nat × PulseInst)) (st : AsmState),
      (st.groups.map Prod.fst).Nodup → (∀ g ∈ st.groups, g.2 ≠ []) →
      (((sched.foldl stepInst st).groups.map Prod.fst).Nodup ∧
        ∀ g ∈ (sched.foldl stepInst st).groups, g.2 ≠ []) := by
  intro sched
  induction sched with
  | nil => intro st h1 h2; exact ⟨h1, h2⟩
  | cons ti rest ih =>
    intro st h1 h2
    obtain ⟨t, inst⟩ := ti
    cases inst with
    | play samples ch => exact ih _ (by simpa [stepInst] using h1) (by simpa [stepInst] using h2)
    | acquire a =>
      have hadd := addAcquire_wf st.groups (t, a.duration) a h1 h2
      exact ih _ (by rw [stepInst_groups_acquire]; exact hadd.1)
        (by rw [stepInst_groups_acquire]; exact hadd.2)
    | delay dd ch => exact ih _ (by simpa [stepInst] using h1) (by simpa [stepInst] using h2)
    | frame tag ch => exact ih _ (by simpa [stepInst] using h1) (by simpa [stepInst] using h2)

theorem foldl_stepInst_out_filter (t d : Nat) :
    ∀ (sched : List (Nat × PulseInst)) (st : AsmState),
      ((sched.foldl stepInst st).out).filter (isBundleFor t d) =
        st.out.filter (isBundleFor t d) := by
  intro sched
  induction sched with
  | nil => intro st; rfl
  | cons ti rest ih =>
    intro st
    obtain ⟨t0, inst⟩ := ti
    cases inst with
    | play samples ch =>
      rw [List.foldl_cons, ih]
      simp [stepInst, List.filter_append, isBundleFor]
    | acquire a =>
      rw [List.foldl_cons, ih]
      cases hm : a.memSlot <;> simp [stepInst, hm]
    | delay dd ch =>
      rw [List.foldl_cons, ih]
      simp [stepInst]
    | frame tag ch =>
      rw [List.foldl_cons, ih]
      simp [stepInst, List.filter_append, isBundleFor]

theorem filter_key_of_nodup :
    ∀ (groups : List (AcqKey × List AcquireInst)),
      (groups.map Prod.fst).Nodup → (∀ g ∈ groups, g.2 ≠ []) → ∀ key,
      groups.filter (fun g => decide (g.1 = key)) =
        if lookVal groups key = [] then [] else [(key, lookVal groups key)] := by
  intro groups
  induction groups with
  | nil => intro _ _ key; simp [lookVal, List.find?]
  | cons g rest ih =>
    intro hnd hne key
    rw [List.map_cons, List.nodup_cons] at hnd
    by_cases hk : g.1 = key
    · have hkey_not : key ∉ rest.map Prod.fst := hk ▸ hnd.1
      have hrest : rest.filter (fun g => decide (g.1 = key)) = [] := by
        rw [List.filter_eq_nil_iff]
        intro x hx
        simp only [decide_eq_true_eq]
        intro hxk
        exact hkey_not (hxk ▸ List.mem_map_of_mem Prod.fst hx)
      have hlv : lookVal (g :: rest) key = g.2 := by
        simp [lookVal, List.find?, decide_eq_true hk]
      have hg2 : g.2 ≠ [] := hne g (List.mem_cons_self _ _)
      rw [List.filter_cons]
      simp only [decide_eq_true_eq, if_pos hk]
      rw [hrest, hlv, if_neg hg2]
      have hgeq : g = (key, g.2) := by rw [← hk]
      rw [← hgeq]
    · have hlv : lookVal (g :: rest) key = lookVal rest key := by
        simp [lookVal, List.find?, decide_eq_false hk]
      rw [List.filter_cons]
      simp only [decide_eq_true_eq, if_neg hk]
      rw [hlv]
      exact ih hnd.2 (fun x hx => hne x (List.mem_cons_of_mem _ hx)) key

theorem isBundleFor_mkBundle (t d : Nat) (g : AcqKey × List AcquireInst) :
    isBundleFor t d (mkBundle g) = decide (g.1 = (t, d)) := by
  obtain ⟨⟨t0, d0⟩, l⟩ := g
  simp [mkBundle, bundleChannelIndices, isBundleFor, Prod.ext_iff]

/-- C4 counterexample: a single acquire carrying a memory slot but no register
slot lowers to one wire instruction whose register-slot list is empty — length
0, not the claimed parallel length `N = 1` of the channel list — so the three
lists are not always parallel `N`-length arrays. -/
theorem c4_counterexample :
    assembleInstructions [(0, PulseInst.acquire ⟨10, 0, some 0, none⟩)] none [] =
      Except.ok ([QobjPulseInst.acquireBundle 0 10 [0] [0] []], 0, []) ∧
    ([] : List Nat).length ≠ ([0] : List Nat).length :=
  ⟨rfl, by decide⟩

/-- C4 (amended): for every grouping key `(t, d)` with at least one acquire,
a successful lowering emits exactly one wire instruction for that key; its
channel-index list is the `N`-length encounter-ordered channel list of the
group, while its memory-slot and register-slot lists contain, in encounter
order, the slots of exactly those acquires that carry one (so all three are
parallel `N`-length arrays precisely when every acquire in the group carries
both slots). -/
theorem c4_acquire_bundling (sched : List (Nat × PulseInst)) (t d : Nat)
    (out : List QobjPulseInst) (maxm : Nat) (lib lib' : PulseLib)
    (hok : assembleInstructions sched none lib = Except.ok (out, maxm, lib'))
    (hne : acquiresWithKey sched t d ≠ []) :
    out.filter (isBundleFor t d) =
      [QobjPulseInst.acquireBundle t d
        ((acquiresWithKey sched t d).map AcquireInst.channel)
        ((acquiresWithKey sched t d).filterMap AcquireInst.memSlot)
        ((acquiresWithKey sched t d).filterMap AcquireInst.regSlot)] := by
  have hlook : lookVal ((sched.foldl stepInst
      { out := [], maxMemorySlot := 0, groups := [], lib := lib }).groups) (t, d) =
      acquiresWithKey sched t d := by
    rw [foldl_stepInst_lookVal]
    simp [lookVal, List.find?]
  have hwf := foldl_stepInst_wf sched
    { out := [], maxMemorySlot := 0, groups := [], lib := lib }
    (by simp) (by simp)
  have hgne : ((sched.foldl stepInst
      { out := [], maxMemorySlot := 0, groups := [], lib := lib }).groups).isEmpty
      ≠ true := by
    intro hemp
    rw [List.isEmpty_iff] at hemp
    rw [hemp] at hlook
    exact hne (by rw [← hlook]; rfl)
  unfold assembleInstructions at hok
  rw [if_neg hgne, if_pos (show measMapOk none (List.foldl stepInst
    { out := [], maxMemorySlot := 0, groups := [], lib := lib } sched).groups = true
    from rfl)] at hok
  have hout : out = (sched.foldl stepInst
      { out := [], maxMemorySlot := 0, groups := [], lib := lib }).out ++
      ((sched.foldl stepInst
        { out := [], maxMemorySlot := 0, groups := [], lib := lib }).groups).map
        mkBundle := by
    cases hok
    rfl
  rw [hout, List.filter_append, foldl_stepInst_out_filter]
  simp only [List.filter_nil, List.nil_append]
  rw [List.filter_map]
  have hpred : ((isBundleFor t d) ∘ mkBundle) =
      (fun g : AcqKey × List AcquireInst => decide (g.1 = (t, d))) := by
    funext g
    exact isBundleFor_mkBundle t d g
  rw [hpred, filter_key_of_nodup _ hwf.1 hwf.2 (t, d), hlook, if_neg hne]
  simp [mkBundle, bundleChannelIndices]

/-- Witness for C4: two acquires at `(0, 10)` on channels 0 and 1 (only the
first carrying a register slot) plus an unrelated acquire at time 5 lower to
exactly one bundle for key `(0, 10)`, channels `[0, 1]` in encounter order. -/
theorem c4_witness :
    ∃ out maxm lib',
      assembleInstructions
          [(0, PulseInst.acquire ⟨10, 0, some 0, some 0⟩),
           (0, PulseInst.acquire ⟨10, 1, some 1, none⟩),
           (5, PulseInst.acquire ⟨10, 2, some 2, none⟩)] none [] =
        Except.ok (out, maxm, lib') ∧
      out.filter (isBundleFor 0 10) =
        [QobjPulseInst.acquireBundle 0 10 [0, 1] [0, 1] [0]] := by
  refine ⟨[QobjPulseInst.acquireBundle 0 10 [0, 1] [0, 1] [0],
           QobjPulseInst.acquireBundle 5 10 [2] [2] []], 2, [], rfl, ?_⟩
  have h := c4_acquire_bundling
    [(0, PulseInst.acquire ⟨10, 0, some 0, some 0⟩),
     (0, PulseInst.acquire ⟨10, 1, some 1, none⟩),
     (5, PulseInst.acquire ⟨10, 2, some 2, none⟩)] 0 10
    [QobjPulseInst.acquireBundle 0 10 [0, 1] [0, 1] [0],
     QobjPulseInst.acquireBundle 5 10 [2] [2] []] 2 [] [] rfl (by decide)
  exact h

theorem dictInsert_find_same (lib : PulseLib) (s : List Int) :
    (dictInsert lib s s).find? (fun e => decide (e.1 = s)) = some (s, s) := by
  induction lib with
  | nil => simp [dictInsert, List.find?]
  | cons e rest ih =>
    by_cases hk : e.1 = s
    · rw [dictInsert, if_pos hk, List.find?]
      rw [show (decide ((e.1, s).1 = s)) = true from decide_eq_true hk]
      rw [show ((e.1, s) : List Int × List Int) = (s, s) by rw [hk]]
    · rw [dictInsert, if_neg hk, List.find?]
      rw [show (decide (e.1 = s)) = false from decide_eq_false hk]
      exact ih

theorem dictInsert_find_other (lib : PulseLib) (s other : List Int)
    (hne : other ≠ s) :
    (dictInsert lib s s).find? (fun e => decide (e.1 = other)) =
      lib.find? (fun e => decide (e.1 = other)) := by
  induction lib with
  | nil =>
    simp [dictInsert, List.find?,
      show (decide (s = other)) = false from decide_eq_false (fun h => hne h.symm)]
  | cons e rest ih =>
    by_cases hk : e.1 = s
    · rw [dictInsert, if_pos hk, List.find?, List.find?]
      rw [show (decide ((e.1, s).1 = other)) = false from decide_eq_false
        (by simp only []; rw [hk]; exact fun h => hne h.symm)]
    · rw [dictInsert, if_neg hk, List.find?, List.find?]
      by_cases ho : e.1 = other
      · rw [show (decide (e.1 = other)) = true from decide_eq_true ho]
      · rw [show (decide (e.1 = other)) = false from decide_eq_false ho]
        exact ih

/-- A content key is recorded in the library with its own samples as value. -/
def KeyHas (lib : PulseLib) (s : List Int) : Prop :=
  lib.find? (fun e => decide (e.1 = s)) = some (s, s)

theorem keyHas_dictInsert (lib : PulseLib) (s s' : List Int) (h : KeyHas lib s) :
    KeyHas (dictInsert lib s' s') s := by
  by_cases he : s' = s
  · subst he
    exact dictInsert_find_same lib s'
  · unfold KeyHas
    rw [dictInsert_find_other lib s' s (fun hh => he hh.symm)]
    exact h

theorem stepInst_lib (st : AsmState) (ti : Nat × PulseInst) :
    (stepInst st ti).lib = st.lib ∨
      ∃ s, (stepInst st ti).lib = dictInsert st.lib s s := by
  obtain ⟨t, inst⟩ := ti
  cases inst with
  | play samples ch => exact Or.inr ⟨samples, rfl⟩
  | acquire a => cases hm : a.memSlot <;> simp [stepInst, hm]
  | delay d ch => exact Or.inl rfl
  | frame tag ch => exact Or.inl rfl

theorem foldl_stepInst_keyHas (s : List Int) :
    ∀ (sched : List (Nat × PulseInst)) (st : AsmState),
      KeyHas st.lib s → KeyHas ((sched.foldl stepInst st).lib) s := by
  intro sched
  induction sched with
  | nil => intro st h; exact h
  | cons ti rest ih =>
    intro st h
    rw [List.foldl_cons]
    refine ih _ ?_
    rcases stepInst_lib st ti with heq | ⟨s', heq⟩
    · rw [heq]; exact h
    · rw [heq]; exact keyHas_dictInsert _ _ _ h

theorem foldl_stepInst_play_keyHas :
    ∀ (sched : List (Nat × PulseInst)) (st : AsmState) (t ch : Nat) (s : List Int),
      (t, PulseInst.play s ch) ∈ sched →
      KeyHas ((sched.foldl stepInst st).lib) s := by
  intro sched
  induction sched with
  | nil => intro st t ch s h; cases h
  | cons ti rest ih =>
    intro st t ch s h
    rcases List.mem_cons.mp h with rfl | hmem
    · rw [List.foldl_cons]
      refine foldl_stepInst_keyHas s rest _ ?_
      show KeyHas (dictInsert st.lib (sha256Digest s) s) s
      exact dictInsert_find_same st.lib s
    · rw [List.foldl_cons]
      exact ih _ t ch s hmem

theorem programPulseLib_foldl_keyHas (s : List Int) :
    ∀ (prog : List (List (Nat × PulseInst))) (lib0 : PulseLib),
      KeyHas lib0 s →
      KeyHas (prog.foldl (fun lib sched => (sched.foldl stepInst
        { out := [], maxMemorySlot := 0, groups := [], lib := lib }).lib) lib0) s := by
  intro prog
  induction prog with
  | nil => intro lib0 h; exact h
  | cons sched rest ih =>
    intro lib0 h
    rw [List.foldl_cons]
    exact ih _ (foldl_stepInst_keyHas s sched _ h)

theorem dictInsert_mem (lib : PulseLib) (s : List Int) :
    ∀ e ∈ dictInsert lib s s, e ∈ lib ∨ e = (s, s) := by
  induction lib with
  | nil =>
    intro e he
    simp only [dictInsert, List.mem_singleton] at he
    exact Or.inr he
  | cons e0 rest ih =>
    intro e he
    by_cases hk : e0.1 = s
    · rw [dictInsert, if_pos hk] at he
      rcases List.mem_cons.mp he with rfl | hmem
      · exact Or.inr (by rw [hk])
      · exact Or.inl (List.mem_cons_of_mem _ hmem)
    · rw [dictInsert, if_neg hk] at he
      rcases List.mem_cons.mp he with rfl | hmem
      · exact Or.inl (List.mem_cons_self _ _)
      · rcases ih e hmem with h | h
        · exact Or.inl (List.mem_cons_of_mem _ h)
        · exact Or.inr h

theorem dictInsert_keys (lib : PulseLib) (s : List Int) :
    (dictInsert lib s s).map Prod.fst =
      if s ∈ lib.map Prod.fst then lib.map Prod.fst
      else lib.map Prod.fst ++ [s] := by
  induction lib with
  | nil => simp [dictInsert]
  | cons e rest ih =>
    by_cases hk : e.1 = s
    · simp [dictInsert, hk]
    · simp only [dictInsert, if_neg hk, List.map_cons, ih]
      by_cases hmem : s ∈ rest.map Prod.fst
      · rw [if_pos hmem, if_pos (by simp [hmem])]
      · rw [if_neg hmem, if_neg (by
          simp only [List.mem_cons]
          rintro (h | h)
          · exact hk h.symm
          · exact hmem h)]
        rfl

theorem dictInsert_wf (lib : PulseLib) (s : List Int)
    (hinv : ∀ e ∈ lib, e.1 = e.2) (hnd : (lib.map Prod.fst).Nodup) :
    (∀ e ∈ dictInsert lib s s, e.1 = e.2) ∧
      ((dictInsert lib s s).map Prod.fst).Nodup := by
  constructor
  · intro e he
    rcases dictInsert_mem lib s e he with h | h
    · exact hinv e h
    · rw [h]
  · rw [dictInsert_keys]
    by_cases hmem : s ∈ lib.map Prod.fst
    · rw [if_pos hmem]; exact hnd
    · rw [if_neg hmem]
      simp [List.nodup_append, hnd, hmem]

theorem foldl_stepInst_lib_wf :
    ∀ (sched : List (Nat × PulseInst)) (st : AsmState),
      (∀ e ∈ st.lib, e.1 = e.2) → ((st.lib.map Prod.fst).Nodup) →
      (∀ e ∈ (sched.foldl stepInst st).lib, e.1 = e.2) ∧
        (((sched.foldl stepInst st).lib.map Prod.fst).Nodup) := by
  intro sched
  induction sched with
  | nil => intro st h1 h2; exact ⟨h1, h2⟩
  | cons ti rest ih =>
    intro st h1 h2
    rw [List.foldl_cons]
    rcases stepInst_lib st ti with heq | ⟨s', heq⟩
    · exact ih _ (heq ▸ h1) (heq ▸ h2)
    · have := dictInsert_wf st.lib s' h1 h2
      exact ih _ (heq ▸ this.1) (heq ▸ this.2)

theorem programPulseLib_wf (prog : List (List (Nat × PulseInst))) :
    (∀ e ∈ programPulseLib prog, e.1 = e.2) ∧
      ((programPulseLib prog).map Prod.fst).Nodup := by
  unfold programPulseLib
  generalize hlib : ([] : PulseLib) = lib0
  have h1 : ∀ e ∈ lib0, e.1 = e.2 := by rw [← hlib]; intro e he; cases he
  have h2 : (lib0.map Prod.fst).Nodup := by rw [← hlib]; exact List.nodup_nil
  clear hlib
  induction prog generalizing lib0 with
  | nil => exact ⟨h1, h2⟩
  | cons sched rest ih =>
    rw [List.foldl_cons]
    have := foldl_stepInst_lib_wf sched
      { out := [], maxMemorySlot := 0, groups := [], lib := lib0 } h1 h2
    exact ih _ this.1 this.2

theorem programPulseLib_play_keyHas :
    ∀ (prog : List (List (Nat × PulseInst))) (lib0 : PulseLib)
      (sched : List (Nat × PulseInst)) (t ch : Nat) (s : List Int),
      sched ∈ prog → (t, PulseInst.play s ch) ∈ sched →
      KeyHas (prog.foldl (fun lib sched => (sched.foldl stepInst
        { out := [], maxMemorySlot := 0, groups := [], lib := lib }).lib) lib0) s := by
  intro prog
  induction prog with
  | nil => intro lib0 sched t ch s h; cases h
  | cons s0 rest ih =>
    intro lib0 sched t ch s hsched hplay
    rw [List.foldl_cons]
    rcases List.mem_cons.mp hsched with rfl | hmem
    · exact programPulseLib_foldl_keyHas s rest _
        (foldl_stepInst_play_keyHas sched _ t ch s hplay)
    · exact ih _ sched t ch s hmem hplay

/-- C9: within one pulse lowering run over a whole program, every
envelope-carrying instruction's sample vector is recorded in the
content-addressed pulse library under its content digest — so two
instructions with byte-identical sample vectors map to the same entry, even
across different schedules — and the emitted library contains no two entries
with identical sample content. -/
theorem c9_pulse_library_dedup (prog : List (List (Nat × PulseInst))) :
    (∀ sched ∈ prog, ∀ (t ch : Nat) (samples : List Int),
      (t, PulseInst.play samples ch) ∈ sched →
      (programPulseLib prog).find?
          (fun e => decide (e.1 = sha256Digest samples)) =
        some (sha256Digest samples, samples)) ∧
    ((programPulseLib prog).map Prod.snd).Nodup := by
  constructor
  · intro sched hsched t ch samples hplay
    exact programPulseLib_play_keyHas prog [] sched t ch samples hsched hplay
  · have hwf := programPulseLib_wf prog
    have hmaps : (programPulseLib prog).map Prod.snd =
        (programPulseLib prog).map Prod.fst :=
      List.map_congr_left (fun e he => (hwf.1 e he).symm)
    rw [hmaps]
    exact hwf.2

/-- Witness for C9: two schedules of one program playing byte-identical
sample vectors share the single library entry for that content. -/
theorem c9_witness :
    (programPulseLib [[(0, PulseInst.play [1, 2] 0)], [(0, PulseInst.play [1, 2] 1)]]).find?
        (fun e => decide (e.1 = sha256Digest [1, 2])) =
      some (sha256Digest [1, 2], [1, 2]) :=
  (c9_pulse_library_dedup [[(0, PulseInst.play [1, 2] 0)], [(0, PulseInst.play [1, 2] 1)]]).1
    [(0, PulseInst.play [1, 2] 1)] (by decide) 0 1 [1, 2] (by decide)

end PulseLowering

namespace Builder

/-- C6 counterexample: a body that appended one instruction and then raised
leaves the build with the error propagating, but the schedule handed to the
build context has been mutated: the partially built batch was aligned and
appended by the `finally:` block — refuting "the schedule is not mutated with
partially built content when the context exits via an exception". -/
theorem c6_counterexample :
    buildRun [] [⟨"play"⟩] (some (BuildError.userError "boom")) =
      ([Block.aligned [⟨"play"⟩]], some (BuildError.userError "boom")) ∧
    ([Block.aligned [⟨"play"⟩]] : List Block) ≠ [] :=
  ⟨rfl, by simp⟩

/-- C6 (amended): an error raised inside a builder scope propagates out of
the build — no result value replaces it — but on exceptional exit the
schedule handed to the build context IS mutated: the pending batch is
aligned and appended by the `finally:` block before the error propagates, so
the schedule always differs from the one handed in. -/
theorem c6_error_propagates_but_flushes (schedule : List Block)
    (pending : List BInst) (e : BuildError) :
    (buildRun schedule pending (some e)).2 = some e ∧
    (buildRun schedule pending (some e)).1 =
      scheduleAppendBlock schedule (alignLeft pending) ∧
    (buildRun schedule pending (some e)).1 ≠ schedule := by
  refine ⟨rfl, rfl, ?_⟩
  intro h
  have hlen := congrArg List.length h
  simp [buildRun, scheduleAppendBlock] at hlen

/-- C10: for every frequency, phase and pulse channel, the builder operations
`shift_frequency` and `set_phase` raise `NotImplementedError`
unconditionally; consequently every entry into the `frequency_offset`
context (with or without phase compensation) raises, and neither operation
can ever return successfully — no `ShiftFrequency` or `SetPhase` instruction
is appended through the builder DSL. -/
theorem c10_shift_frequency_set_phase_unimplemented :
    (∀ (f : ℚ) (ch : PulseSchedule.PChannel),
      shiftFrequency f ch = Except.error BuilderError.notImplemented) ∧
    (∀ (p : ℚ) (ch : PulseSchedule.PChannel),
      setPhase p ch = Except.error BuilderError.notImplemented) ∧
    (∀ (dur : Nat) (f : ℚ) (ch : PulseSchedule.PChannel) (comp : Bool),
      frequencyOffsetEnter dur f ch comp =
        Except.error BuilderError.notImplemented) ∧
    (∀ (f : ℚ) (ch : PulseSchedule.PChannel) (u : Unit),
      shiftFrequency f ch ≠ Except.ok u ∧ setPhase f ch ≠ Except.ok u) := by
  refine ⟨fun _ _ => rfl, fun _ _ => rfl, fun _ _ _ _ => rfl, fun f ch u => ⟨?_, ?_⟩⟩
  · intro h
    simp [shiftFrequency] at h
  · intro h
    simp [setPhase] at h

end Builder
